import Mathlib

/-!
# Verification of the hangar-py core against its specification

A shallow embedding of the parts of the repository the frozen claims are
about, together with theorems settling each claim:

* `src/hangar/merger.py` — ancestor determination, conflict gating,
  three-way patch application, merge algorithm selection and the writer lock;
* `src/hangar/backends/hdf5.py` — location record encode/decode, chunk-shape
  selection, and the cursor-advance/write protocol of `write_data`;
* `src/hangar/remotes.py` and `src/hangar/repository.py` — fetch no-op
  behaviour, partial-clone `fetch_data`, and the push missing-set discovery.

Python dicts are modelled as insertion-ordered association lists
(`List (K × V)`), matching dict semantics: assignment replaces in place or
appends, `del` removes the entry, `in` and subscript look up by key.
-/

namespace Hangar

/-! ## Association lists: the model of Python dicts -/

variable {K : Type} {V : Type} [DecidableEq K]

/-- Python `d[k]` / `d.get(k)`: first entry with the given key. -/
def lookupA : List (K × V) → K → Option V
  | [], _ => none
  | kv :: t, k => if kv.1 = k then some kv.2 else lookupA t k

/-- Python `k in d`. -/
def memA (m : List (K × V)) (k : K) : Bool :=
  (lookupA m k).isSome

/-- Python `d[k] = v`: replace the value in place when the key is present,
append the pair otherwise (Python dicts preserve insertion order). -/
def insertA (m : List (K × V)) (k : K) (v : V) : List (K × V) :=
  if memA m k then m.map (fun kv => if kv.1 = k then (k, v) else kv)
  else m ++ [(k, v)]

/-- Python `del d[k]`. -/
def eraseA : List (K × V) → K → List (K × V)
  | [], _ => []
  | kv :: t, k => if kv.1 = k then eraseA t k else kv :: eraseA t k

/-! ## Merge engine (`src/hangar/merger.py`)

Records are abstracted: sample and metadata maps are `List (Nat × Nat)`
(key ↦ digest), dataset schemas are `Nat` valued.  The change classifier and
conflict detector live in `diff.py`, which is not under `src/`; they are
modelled from the spec below.  Everything from `merger.py` itself
(`_merge_changes`, `_compute_merge_results`, `_three_way_merge`,
`select_merge_algorithm`) is translated directly from the source. -/

/-- One arrayset at a commit: its schema record and its sample map. -/
structure DatasetContents where
  schema : Nat
  data : List (Nat × Nat)
  deriving DecidableEq, Inhabited

/-- Contents of one commit (`get_commit_ref_contents` output shape):
named arraysets plus the metadata map. -/
structure CommitContents where
  datasets : List (Nat × DatasetContents)
  metadata : List (Nat × Nat)
  deriving DecidableEq, Inhabited

/-- The add/remove/mutate/unchanged bundle for one side of a three-way diff. -/
structure Changes where
  additions : List (Nat × Nat)
  unchanged : List (Nat × Nat)
  removals : List (Nat × Nat)
  mutations : List (Nat × Nat)
  deriving DecidableEq, Inhabited

/-- The `{'master': …, 'dev': …}` pair of change bundles fed to
`_merge_changes`. -/
structure BranchChanges where
  master : Changes
  dev : Changes
  deriving DecidableEq, Inhabited

/-- Modelled from the spec: `diff.py` is not under `src/`.  "For any two
mappings `base → variant` … for every key compute one of: addition (in
variant not in base), removal (in base not in variant), mutation (in both,
values differ), unchanged (in both, values equal)." -/
def computeChanges (base variant : List (Nat × Nat)) : Changes where
  additions := variant.filter (fun kv => !memA base kv.1)
  removals := base.filter (fun kv => !memA variant kv.1)
  mutations := variant.filter (fun kv =>
    match lookupA base kv.1 with
    | some v => v ≠ kv.2
    | none => false)
  unchanged := variant.filter (fun kv => lookupA base kv.1 = some kv.2)

/-- Modelled from the spec: conflicts between the master and dev change
bundles of one record layer — "add/add: same key added on both, with
different values; remove/mutate: removed on one side, mutated on the other;
mutate/mutate: mutated on both with different values". -/
def conflictsIn (mCh dCh : Changes) : Bool :=
  mCh.additions.any (fun kv =>
    match lookupA dCh.additions kv.1 with
    | some v => v ≠ kv.2
    | none => false) ||
  mCh.removals.any (fun kv => memA dCh.mutations kv.1) ||
  dCh.removals.any (fun kv => memA mCh.mutations kv.1) ||
  mCh.mutations.any (fun kv =>
    match lookupA dCh.mutations kv.1 with
    | some v => v ≠ kv.2
    | none => false)

/-- The per-arrayset schema map of a commit (`m_cont['datasets'][dsetn]['schema']`). -/
def schemaMap (c : CommitContents) : List (Nat × Nat) :=
  c.datasets.map (fun p => (p.1, p.2.schema))

/-- The sample map of one arrayset of a commit, empty when the arrayset is
absent (`c_cont['datasets'][dsetn]['data']`). -/
def dataMap (c : CommitContents) (dsetn : Nat) : List (Nat × Nat) :=
  ((lookupA c.datasets dsetn).map DatasetContents.data).getD []

/-- Modelled from the spec: `ThreeWayCommitDiffer.determine_conflicts`
(`diff.py`, not under `src/`).  Conflicts are computed at the three layers:
dataset schemas, per-arrayset samples (for arraysets present in both master
and dev), and metadata; `conflict_found` is their disjunction. -/
def determine_conflicts (a m d : CommitContents) : Bool :=
  conflictsIn (computeChanges (schemaMap a) (schemaMap m))
              (computeChanges (schemaMap a) (schemaMap d)) ||
  (m.datasets.filter (fun p => memA d.datasets p.1)).any (fun p =>
    conflictsIn (computeChanges (dataMap a p.1) (dataMap m p.1))
                (computeChanges (dataMap a p.1) (dataMap d p.1))) ||
  conflictsIn (computeChanges a.metadata m.metadata)
              (computeChanges a.metadata d.metadata)

/-- The first and third loops of `_merge_changes` share one shape:
`for dK in src: if dK not in skip_dict: m_dict[dK] = src[dK]`. -/
def insertUnlessInLoop (skip_dict src m_dict : List (Nat × Nat)) :
    List (Nat × Nat) :=
  src.foldl (fun acc kv =>
    if memA skip_dict kv.1 then acc else insertA acc kv.1 kv.2) m_dict

/-- The second loop of `_merge_changes`:
`for dK in d_removed: if dK in m_unchanged: del m_dict[dK]`. -/
def removeIfInLoop (cond_dict src m_dict : List (Nat × Nat)) :
    List (Nat × Nat) :=
  src.foldl (fun acc kv =>
    if memA cond_dict kv.1 then eraseA acc kv.1 else acc) m_dict

/-- Source `_merge_changes(changes, m_dict)` (merger.py:468-511): three loops over
dev's additions, removals and mutations patching `m_dict` in place. -/
def merge_changes (changes : BranchChanges) (m_dict : List (Nat × Nat)) :
    List (Nat × Nat) :=
  let s1 := insertUnlessInLoop changes.master.additions
    changes.dev.additions m_dict
  let s2 := removeIfInLoop changes.master.unchanged
    changes.dev.removals s1
  insertUnlessInLoop changes.master.mutations changes.dev.mutations s2

/-- The branch-pair of change bundles for one record layer, as produced by
the differ's `dataset_changes` / `sample_changes` / `meta_changes`. -/
def branchChanges (aM mM dM : List (Nat × Nat)) : BranchChanges where
  master := computeChanges aM mM
  dev := computeChanges aM dM

/-- Source `_compute_merge_results(a_cont, m_cont, d_cont)` (merger.py:514-577):
conflict gate, then schema / per-arrayset sample / metadata patching.
An arrayset named in the merged schema dict but absent from master takes
dev's sample map wholesale. -/
def compute_merge_results (a m d : CommitContents) :
    Except String CommitContents :=
  if determine_conflicts a m d then
    Except.error "HANGAR VALUE ERROR:: Merge ABORTED with conflict"
  else
    let m_schema_dict := schemaMap m
    let o_schema_dict :=
      merge_changes (branchChanges (schemaMap a) (schemaMap m) (schemaMap d))
        m_schema_dict
    let o_data_dict := o_schema_dict.map (fun p =>
      (p.1,
        if memA m.datasets p.1 then
          merge_changes (branchChanges (dataMap a p.1) (dataMap m p.1)
            (dataMap d p.1)) (dataMap m p.1)
        else dataMap d p.1))
    let o_meta_dict :=
      merge_changes (branchChanges a.metadata m.metadata d.metadata) m.metadata
    Except.ok
      { datasets := o_schema_dict.map (fun p =>
          (p.1, { schema := p.2, data := (lookupA o_data_dict p.1).getD [] })),
        metadata := o_meta_dict }

/-- The repository state touched by a merge: the staging area (its record
contents), branch heads, the commit-ref store and the stage-hash additions. -/
structure RepoState where
  stage : CommitContents
  branches : List (String × String)
  refs : List (String × CommitContents)
  stagehash : List Nat
  deriving DecidableEq, Inhabited

/-- Modelled from the spec: the merge commit digest — "Commit digest = hash
over (sorted refs bytes, sorted parents, spec bytes)"; `commiting.py` is not
under `src/`, so an explicit executable stand-in is used. -/
def mergeCommitHash (merged : CommitContents) (masterHEAD devHEAD : String) :
    String :=
  "merge-" ++ masterHEAD ++ "-" ++ devHEAD ++ "-" ++
    toString merged.datasets.length ++ "-" ++ toString merged.metadata.length

/-- Source `_three_way_merge` (merger.py:362-431): compute the patched contents
(raising on conflict before any mutation), overwrite the staging area,
commit the result (advancing the master branch head to the new digest —
`commiting.commit_records` is modelled from the spec), then clear the
stage-hash records. -/
def three_way_merge (master_branch_name masterHEAD devHEAD
    ancestorHEAD : String) (st : RepoState) :
    Except String String × RepoState :=
  let a_cont := (lookupA st.refs ancestorHEAD).getD default
  let m_cont := (lookupA st.refs masterHEAD).getD default
  let d_cont := (lookupA st.refs devHEAD).getD default
  match compute_merge_results a_cont m_cont d_cont with
  | Except.error e => (Except.error e, st)
  | Except.ok merged =>
    let commit_hash := mergeCommitHash merged masterHEAD devHEAD
    (Except.ok commit_hash,
      { stage := merged,
        branches := insertA st.branches master_branch_name commit_hash,
        refs := insertA st.refs commit_hash merged,
        stagehash := [] })

/-- Source `_fast_forward_merge` (merger.py:327-356): re-point the master branch
head at the dev head. -/
def fast_forward_merge (master_branch : String) (new_masterHEAD : String)
    (st : RepoState) : Except String String × RepoState :=
  (Except.ok new_masterHEAD,
    { st with branches := insertA st.branches master_branch new_masterHEAD })

/-- Source `staging_area_status` (merger.py:88-123): CLEAN iff the staging records
equal the staging branch head commit's refs (an empty head compares against
empty contents). -/
def staging_area_status (staging_branch : String) (st : RepoState) : String :=
  let head_commit := (lookupA st.branches staging_branch).getD ""
  let base_refs := (lookupA st.refs head_commit).getD default
  if st.stage = base_refs then "CLEAN" else "DIRTY"

/-- Modelled from the spec: `heads.acquire_writer_lock` — "acquire takes a
`holder_uuid`"; it "fails if the held uuid is non-empty and different". -/
def acquire_writer_lock (held : Option String) (writer_uuid : String) :
    Except String (Option String) :=
  match held with
  | none => Except.ok (some writer_uuid)
  | some h =>
    if h = writer_uuid then Except.ok (some writer_uuid)
    else Except.error "PermissionError: writer lock already held"

/-- Modelled from the spec: `heads.release_writer_lock` — "release requires
the same uuid (or a known force-release sentinel)". -/
def release_writer_lock (held : Option String) (writer_uuid : String) :
    Option String :=
  if held = some writer_uuid || writer_uuid = "FORCE_RELEASE_SENTINEL" then
    none
  else held

/-- The `_determine_ancestors` result bundle (`HistoryDiffStruct`). -/
structure HistoryDiff where
  masterHEAD : String
  devHEAD : String
  ancestorHEAD : String
  canFF : Bool
  deriving DecidableEq, Inhabited

/-- The merge environment: the repo state plus the writer-lock sentinel
value stored in the branch db. -/
structure MergeEnv where
  repo : RepoState
  lock : Option String
  deriving DecidableEq, Inhabited

/-- Source `select_merge_algorithm` (merger.py:236-322): reject a DIRTY staging
area, acquire the writer lock as `'MERGE_PROCESS'`, then run the
fast-forward or three-way strategy guided by `_determine_ancestors`
(whose graph walk is passed in as `anc`, since `records/commiting.py` is not
under `src/`; it may raise `ValueError` for an invalid branch or commit);
the lock release sits in a `finally:` block. -/
def select_merge_algorithm (staging_branch master_branch_name
    dev_branch_name : String) (anc : Except String HistoryDiff)
    (env : MergeEnv) : Except String String × MergeEnv :=
  if staging_area_status staging_branch env.repo ≠ "CLEAN" then
    (Except.error "HANGAR RUNTIME ERROR: Changes are currently pending in the staging area", env)
  else
    match acquire_writer_lock env.lock "MERGE_PROCESS" with
    | Except.error e => (Except.error e, env)
    | Except.ok acquired =>
      let bodyResult :=
        match anc with
        | Except.error e => (Except.error e, env.repo)
        | Except.ok branchDiff =>
          if branchDiff.canFF then
            fast_forward_merge master_branch_name branchDiff.devHEAD env.repo
          else
            three_way_merge master_branch_name branchDiff.masterHEAD
              branchDiff.devHEAD branchDiff.ancestorHEAD env.repo
      (bodyResult.1,
        { repo := bodyResult.2,
          lock := release_writer_lock acquired "MERGE_PROCESS" })

/-! ## Ancestor determination (`_determine_ancestors`, merger.py:64-82)

The graph walk (`get_commit_ancestors_graph`, in `records/commiting.py`, not
under `src/`) supplies the set of common ancestors; the source then builds
`ancestorOrder`, a list of `(ancestor, commit_time)` pairs in set-iteration
order, sorts it by commit time with `reverse=True` (Python's sort is stable,
also under `reverse`), and picks `ancestorOrder[0][0]`. -/

/-- Stable insertion into a time-descending list: the new element goes in
front of the first entry whose time is not strictly greater, so
equal-time entries keep their original relative order. -/
def insertByTimeDesc (x : String × Nat) :
    List (String × Nat) → List (String × Nat)
  | [] => [x]
  | y :: ys => if y.2 > x.2 then y :: insertByTimeDesc x ys else x :: y :: ys

/-- Source `ancestorOrder.sort(key=lambda t: t[1], reverse=True)` — a stable sort
by descending commit time. -/
def sortByTimeDesc (l : List (String × Nat)) : List (String × Nat) :=
  l.foldr insertByTimeDesc []

/-- Source `commonAncestor = ancestorOrder[0][0]` after the stable descending sort
(merger.py:74-75). -/
def determine_common_ancestor (ancestorOrder : List (String × Nat)) :
    Option String :=
  ((sortByTimeDesc ancestorOrder).head?).map Prod.fst

/-! ## Chunk-shape policy (`_chunk_opts`, hdf5.py:213-252)

`np.zeros(shape, dtype).nbytes` is `prod(shape) * itemsize`;
`math.floor(rank_dim / 2)` is natural division by 2.  The `while` loop is
fuelled because it does not terminate on all inputs (see the C4
counterexample). -/

/-- Product of a shape's extents. -/
def prodShape (shape : List Nat) : Nat := shape.foldl (· * ·) 1

/-- One pass of the `while chunk_nbytes > max_chunk_nbytes` loop: wrap the
round-robin index, skip axes of extent ≤ 2, halve (floor) the others and
recompute the byte count. -/
def chunkLoop (itemsize max_chunk_nbytes : Nat) :
    Nat → List Nat → Nat → Nat → Option (List Nat × Nat)
  | 0, chunk_shape, _, chunk_nbytes =>
    if chunk_nbytes ≤ max_chunk_nbytes then some (chunk_shape, chunk_nbytes)
    else none
  | fuel + 1, chunk_shape, chunk_idx, chunk_nbytes =>
    if chunk_nbytes ≤ max_chunk_nbytes then some (chunk_shape, chunk_nbytes)
    else
      let idx := if chunk_idx ≥ chunk_shape.length then 0 else chunk_idx
      let rank_dim := chunk_shape.getD idx 0
      if rank_dim ≤ 2 then
        chunkLoop itemsize max_chunk_nbytes fuel chunk_shape (idx + 1)
          chunk_nbytes
      else
        let chunk_shape' := chunk_shape.set idx (rank_dim / 2)
        chunkLoop itemsize max_chunk_nbytes fuel chunk_shape' (idx + 1)
          (prodShape chunk_shape' * itemsize)

/-- Source `_chunk_opts(sample_array, max_chunk_nbytes)`: start from the sample
shape and its byte count, then run the halving loop. -/
def chunk_opts (fuel : Nat) (sample_shape : List Nat)
    (itemsize max_chunk_nbytes : Nat) : Option (List Nat × Nat) :=
  chunkLoop itemsize max_chunk_nbytes fuel sample_shape 0
    (prodShape sample_shape * itemsize)

/-- Divergence of the `_chunk_opts` while-loop, expressed over the fuelled
model: no amount of fuel makes the loop return a chunk shape. -/
def chunkOptsNeverReturns (sample_shape : List Nat)
    (itemsize max_chunk_nbytes : Nat) : Prop :=
  ∀ fuel : Nat,
    chunk_opts fuel sample_shape itemsize max_chunk_nbytes = none

/-! ## Writer cursor protocol (`HDF5_00_FileHandles`, hdf5.py:254-528)

The handle state is `w_uid` (the open writer container, `None` when no
writer file is open), the cursor `(hNextPath, hIdx)`, `hColsRemain`,
`hMaxSize`, modelled together with a fresh-uid source (for `random_string`)
and the log of persisted-and-flushed cursor attributes. -/

structure WriterState where
  w_uid : Option Nat
  hNextPath : Nat
  hIdx : Nat
  hColsRemain : Nat
  hMaxSize : Nat
  nextUid : Nat
  flushedAttrs : List (Nat × Nat × Nat × Nat)
  deriving DecidableEq, Inhabited

/-- Source `create_schema` (hdf5.py:254-382, state tail at 377-382): allocate a
fresh container file and point the cursor at `(0, 0)` with all collections
remaining. -/
def create_schema (num_collections collection_size : Nat)
    (st : WriterState) : WriterState :=
  { st with
    w_uid := some st.nextUid,
    nextUid := st.nextUid + 1,
    hNextPath := 0,
    hIdx := 0,
    hColsRemain := num_collections,
    hMaxSize := collection_size }

/-- Source `write_data` (hdf5.py:487-528): when a writer container is open, advance
the cursor *before* writing (`hIdx += 1`; on row overflow move to the next
collection; when `hColsRemain ≤ 1` persist the cursor attributes, flush, and
allocate a new container); when none is open, allocate one.  The sample is
then written at the current cursor, and the returned location is
`(w_uid, hNextPath, hIdx)`. -/
def write_data (num_collections collection_size : Nat) (st : WriterState) :
    WriterState × Nat × Nat × Nat :=
  let st' :=
    match st.w_uid with
    | some uid =>
      let s1 := { st with hIdx := st.hIdx + 1 }
      if s1.hIdx ≥ s1.hMaxSize then
        let s2 := { s1 with
          hIdx := 0,
          hNextPath := s1.hNextPath + 1,
          hColsRemain := s1.hColsRemain - 1 }
        if s2.hColsRemain ≤ 1 then
          let s3 := { s2 with flushedAttrs :=
            (uid, s2.hNextPath, s2.hIdx, s2.hColsRemain) :: s2.flushedAttrs }
          create_schema num_collections collection_size s3
        else s2
      else s1
    | none => create_schema num_collections collection_size st
  (st', st'.w_uid.getD 0, st'.hNextPath, st'.hIdx)

/-! ## Location record codec (`HDF5_00_Parser`, hdf5.py:40-112)

Modelled from the spec where the constants live outside `src/`: the
separators come from `config.get('hangar.seps.*')` — "Separator bytes are
fixed repository constants", single ASCII bytes.  The list separator must be
the space character: `encode` renders the shape as `str(shape)` with
`[ ] ( ) ,` stripped (the `ShapeFmtRE`), which leaves the entries of a
Python tuple repr separated by single spaces, and `decode` splits that field
on the list separator.  Numbers are decimal, as Python's `str` renders
them. -/

def SEP : Char := ':'

def LISTSEP : Char := ' '

def SLICESEP : Char := '*'

def HASHSEP : Char := '$'

/-- Source `FmtCode = '00'`. -/
def FmtCode : List Char := ['0', '0']

/-- Source `FmtCodeIdx = 3`: format code plus one separator byte. -/
def FmtCodeIdx : Nat := 3

/-- A decimal digit character. -/
def digitChar (d : Nat) : Char := Char.ofNat (48 + d)

/-- Decimal rendering of a natural number (Python `str(n)`). -/
def natChars (n : Nat) : List Char :=
  if n = 0 then ['0'] else ((Nat.digits 10 n).map digitChar).reverse

/-- Numeric value of a digit character. -/
def charVal (c : Char) : Nat := c.toNat - 48

/-- Decimal parsing (Python `int(s)`). -/
def charsToNat (l : List Char) : Nat :=
  Nat.ofDigits 10 ((l.map charVal).reverse)

/-- Source `ShapeFmtRE.sub("", str(shape))`: the tuple repr with brackets and
commas removed, i.e. the extents separated by single spaces (`str` of a
Python tuple puts `", "` between entries; stripping the comma leaves the
space, and a 1-tuple's trailing `,)` strips away entirely). -/
def shapeChars : List Nat → List Char
  | [] => []
  | [n] => natChars n
  | n :: rest => natChars n ++ LISTSEP :: shapeChars rest

/-- Source `HDF5_00_Parser.encode` (hdf5.py:56-82). -/
def hdf5_encode (uid : List Char) (dataset dataset_idx : Nat)
    (shape : List Nat) : List Char :=
  FmtCode ++ [SEP] ++ uid ++ [HASHSEP] ++ natChars dataset ++ [LISTSEP] ++
    natChars dataset_idx ++ [SLICESEP] ++ shapeChars shape

/-- Python `s.partition(sep)` restricted to the pieces `decode` uses:
split at the first occurrence (when `sep` is absent the whole string is the
head and the tail is empty, as in `('s', '', '')`). -/
def pySplitFirst (sep : Char) : List Char → List Char × List Char
  | [] => ([], [])
  | c :: t =>
    if c = sep then ([], t)
    else
      let p := pySplitFirst sep t
      (c :: p.1, p.2)

/-- Python `s.rpartition(sep)` restricted to the pieces `decode` uses:
split at the last occurrence (when `sep` is absent the head is empty and
the whole string is the tail, as in `('', '', 's')`). -/
def pySplitLast (sep : Char) : List Char → List Char × List Char
  | [] => ([], [])
  | c :: t =>
    if sep ∈ t then
      let p := pySplitLast sep t
      (c :: p.1, p.2)
    else if c = sep then ([], t)
    else ([], c :: t)

/-- Python `s.split(sep)` with a one-character separator: split at every
occurrence; `''.split(sep) == ['']`. -/
def pySplit (sep : Char) : List Char → List (List Char)
  | [] => [[]]
  | c :: t =>
    match pySplit sep t with
    | [] => [[c]]
    | h :: r => if c = sep then [] :: h :: r else (c :: h) :: r

/-- Source `HDF5_00_Parser.decode` (hdf5.py:84-112): drop the 3-byte prefix,
partition off the uid at the first hash separator, rpartition off the shape
field at the last slice separator, split dataset and index on the list
separator (Python unpacking raises unless exactly two parts result — the
`none` case), and parse the shape, the empty field decoding to the
rank-0 shape `()`.  `dataset` and `dataset_idx` are left as strings, as in
the source. -/
def hdf5_decode (db_val : List Char) :
    Option (List Char × List Char × List Char × List Nat) :=
  let db_str := db_val.drop FmtCodeIdx
  let p1 := pySplitFirst HASHSEP db_str
  let p2 := pySplitLast SLICESEP p1.2
  match pySplit LISTSEP p2.1 with
  | [dataset, dataset_idx] =>
    let shape :=
      if p2.2 = [] then []
      else (pySplit LISTSEP p2.2).map charsToNat
    some (p1.1, dataset, dataset_idx, shape)
  | _ => none

/-! ## Partial-clone data fetch (`fetch_data`, remotes.py:252-315 and
repository.py:231-274)

The hash index (`hashs.HashQuery`, not under `src/`) is passed in as the
digest → `(backend, schema_hash)` map the source reads from it; the writer
side `CW.data(schema, client.fetch_data(schema, hashes))` — which returns
the subset of digests actually persisted — is abstracted as the function
`saved`. -/

/-- One hash-index value: backend format code and schema hash. -/
structure HashSpec where
  backend : String
  schema_hash : Nat
  deriving DecidableEq, Inhabited

/-- Source `m_schema_hash_map[spec.schema_hash].append(digest)` on a
`defaultdict(list)`. -/
def appendGroup (groups : List (Nat × List Nat)) (schema digest : Nat) :
    List (Nat × List Nat) :=
  match lookupA groups schema with
  | some ds => insertA groups schema (ds ++ [digest])
  | none => groups ++ [(schema, [digest])]

/-- The grouping pass of `fetch_data` (remotes.py:300-303,
repository.py:260-263): for each digest of the commit look up its hash
spec (`hashMap[digest]` raises `KeyError` when absent) and collect it under
its schema hash when its backend is `'50'`. -/
def fetch_data_groups (cmtData_hashs : List Nat)
    (hashMap : List (Nat × HashSpec)) :
    Except String (List (Nat × List Nat)) :=
  cmtData_hashs.foldlM (fun groups digest =>
    match lookupA hashMap digest with
    | none => Except.error "KeyError"
    | some hashSpec =>
      if hashSpec.backend = "50" then
        Except.ok (appendGroup groups hashSpec.schema_hash digest)
      else Except.ok groups) []

/-- The per-schema retry loop of `fetch_data` (remotes.py:309-312): while
digests remain, request them, subtract the subset the writer persisted, and
re-request; fuelled, returning the remaining set on exit. -/
def fetch_data_loop (saved : Nat → List Nat → List Nat) :
    Nat → Nat → List Nat → Option (List Nat)
  | 0, _, hashes => if hashes.isEmpty then some hashes else none
  | fuel + 1, schema, hashes =>
    if hashes.isEmpty then some hashes
    else
      let saved_digests := saved schema hashes
      fetch_data_loop saved fuel schema
        (hashes.filter (fun h => !saved_digests.contains h))

/-! ## Push missing-set discovery (`Remote.push`, remotes.py:392-417 and
`Repository.push`, repository.py:419-435) -/

/-- One `push_find_missing_*` RPC as issued by the client: which RPC, for
which commit, and the temporary unpacked ref db sent along (`none` when the
call passes no temp db). -/
structure PushCall where
  rpc : String
  commit : String
  tmpDb : Option CommitContents
  deriving DecidableEq, Inhabited

/-- The Python attribute table of the `Remote` object: `__init__`
(remotes.py:25-29) defines `_env` (and `_repo_path`, `_client`); object ids
are abstracted as `Nat`. -/
structure RemoteSelf where
  attrs : List (String × Nat)
  deriving DecidableEq, Inhabited

/-- Python attribute lookup: `AttributeError` when the name is not
defined on the object. -/
def getattrRemote (o : RemoteSelf) (name : String) : Except String Nat :=
  match lookupA o.attrs name with
  | some v => Except.ok v
  | none => Except.error ("AttributeError: 'Remote' object has no attribute " ++ name)

/-- The per-missing-commit block of `Remote.push` (remotes.py:397-416):
clear the temp db, `commiting.unpack_commit_ref(self.env.refenv, tmpDB,
commit)` — note the source reads attribute `env`, while the object only
defines `_env` — then issue the three `push_find_missing_*` calls, each
carrying the temp db. -/
def remote_push_missing_calls (o : RemoteSelf)
    (refenv : List (String × CommitContents)) (m_commits : List String) :
    Except String (List PushCall) :=
  m_commits.foldlM (fun calls commit => do
    let _refenvObj ← getattrRemote o "env"
    let tmpDB := (lookupA refenv commit).getD default
    Except.ok (calls ++
      [{ rpc := "push_find_missing_schemas", commit := commit,
         tmpDb := some tmpDB },
       { rpc := "push_find_missing_hash_records", commit := commit,
         tmpDb := some tmpDB },
       { rpc := "push_find_missing_labels", commit := commit,
         tmpDb := some tmpDB }])) []

/-- The per-missing-commit block of `Repository.push`
(repository.py:420-435): the same three `push_find_missing_*` RPCs, none of
which is passed any temporary ref db. -/
def repository_push_missing_calls (m_commits : List String) :
    List PushCall :=
  m_commits.foldl (fun calls commit =>
    calls ++
      [{ rpc := "push_find_missing_schemas", commit := commit,
         tmpDb := none },
       { rpc := "push_find_missing_hash_records", commit := commit,
         tmpDb := none },
       { rpc := "push_find_missing_labels", commit := commit,
         tmpDb := none }]) []

/-! ## Fetch (`Repository.fetch`, repository.py:276-354 and `Remote.fetch`,
remotes.py:149-250)

The RPC client (`remote/client.py`, not under `src/`) is abstracted as a
record of response functions; the content written during a fetch is tracked
as an opaque list of write events, so that the no-op paths are visibly
effect-free. -/

/-- Response of `fetch_branch_record`: an error code (0 = found) and the
server branch head commit. -/
structure ServerBranchRec where
  errorCode : Nat
  commit : String
  deriving DecidableEq, Inhabited

/-- The server as seen through the client RPCs used by fetch. -/
structure ServerView where
  branchRecord : String → ServerBranchRec
  findMissingCommits : String → List String
  commitPayload : String → List String

/-- Local state touched by fetch: the branch store and the content-writer
event log. -/
structure FetchState where
  branches : List (String × String)
  writes : List String
  deriving DecidableEq, Inhabited

/-- The download-and-record tail shared by both fetch implementations
(repository.py:322-354, remotes.py:211-250): pull everything for each
missing commit, then create or update the remote-tracking branch
`remote/branch` at the server head. -/
def fetch_proceed (server : ServerView) (remote_name branch_name : String)
    (st : FetchState) : Option String × FetchState :=
  let m_commits := server.findMissingCommits branch_name
  let writes := m_commits.foldl
    (fun acc c => acc ++ server.commitPayload c) []
  let bHEAD := (server.branchRecord branch_name).commit
  let bName := remote_name ++ "/" ++ branch_name
  (some bName,
    { branches := insertA st.branches bName bHEAD,
      writes := st.writes ++ writes })

/-- Source `Repository.fetch` (repository.py:276-354): when the local branch
exists and the server record resolves (`error.code == 0`), a server head
equal to the local head (or already in local history) returns `None`
immediately, before any content is pulled or any branch is touched. -/
def repository_fetch (server : ServerView) (remote_name branch_name : String)
    (c_bhistory : List String) (st : FetchState) :
    Option String × FetchState :=
  match lookupA st.branches branch_name with
  | some c_bcommit =>
    let s_branch := server.branchRecord branch_name
    if s_branch.errorCode = 0 ∧ s_branch.commit = c_bcommit then (none, st)
    else if s_branch.errorCode = 0 ∧ s_branch.commit ∈ c_bhistory then
      (none, st)
    else fetch_proceed server remote_name branch_name st
  | none => fetch_proceed server remote_name branch_name st

/-- Source `Remote.fetch` (remotes.py:149-250): same guards on the existing-branch
path — equal heads (or server behind) return the branch name with no
effect. -/
def remote_fetch (server : ServerView) (remote branch : String)
    (c_bhistory : List String) (st : FetchState) :
    Option String × FetchState :=
  match lookupA st.branches branch with
  | some cHEAD =>
    let sHEAD := (server.branchRecord branch).commit
    if sHEAD = cHEAD then (some branch, st)
    else if sHEAD ∈ c_bhistory then (some branch, st)
    else fetch_proceed server remote branch st
  | none => fetch_proceed server remote branch st

/-! ## Lemma layer: association-list operations -/

@[simp] theorem lookupA_nil (k : K) : lookupA ([] : List (K × V)) k = none := rfl

@[simp] theorem lookupA_cons (kv : K × V) (t : List (K × V)) (k : K) :
    lookupA (kv :: t) k = if kv.1 = k then some kv.2 else lookupA t k := rfl

theorem lookupA_append (l₁ l₂ : List (K × V)) (k : K) :
    lookupA (l₁ ++ l₂) k =
      match lookupA l₁ k with
      | some v => some v
      | none => lookupA l₂ k := by
  induction l₁ with
  | nil => simp
  | cons kv t ih =>
    by_cases h : kv.1 = k <;> simp [h, ih]

theorem lookupA_map_replace (m : List (K × V)) (k : K) (v : V) (x : K) :
    lookupA (m.map (fun kv => if kv.1 = k then (k, v) else kv)) x =
      if x = k then (lookupA m k).map (fun _ => v) else lookupA m x := by
  induction m with
  | nil => simp
  | cons kv t ih =>
    by_cases hk : kv.1 = k
    · by_cases hx : x = k
      · subst hx; simp [hk, ih]
      · simp [hk, hx, ih, Ne.symm hx]
    · by_cases hx : kv.1 = x
      · have : ¬ x = k := by rintro rfl; exact hk hx
        simp [hk, hx, this]
      · simp [hk, hx, ih]

theorem lookupA_insertA (m : List (K × V)) (k : K) (v : V) (x : K) :
    lookupA (insertA m k v) x = if x = k then some v else lookupA m x := by
  unfold insertA
  by_cases hm : memA m k
  · rw [if_pos hm, lookupA_map_replace]
    by_cases hx : x = k
    · subst hx
      simp only [if_pos rfl]
      unfold memA at hm
      cases h : lookupA m x with
      | none => rw [h] at hm; simp at hm
      | some w => simp
    · simp [hx]
  · rw [if_neg hm, lookupA_append]
    by_cases hx : x = k
    · subst hx
      unfold memA at hm
      cases h : lookupA m x with
      | none => simp
      | some w => rw [h] at hm; simp at hm
    · cases h : lookupA m x with
      | none => simp [hx, Ne.symm hx]
      | some w => simp [hx]

theorem lookupA_eraseA (m : List (K × V)) (k : K) (x : K) :
    lookupA (eraseA m k) x = if x = k then none else lookupA m x := by
  induction m with
  | nil => simp [eraseA]
  | cons kv t ih =>
    by_cases hk : kv.1 = k
    · by_cases hx : x = k
      · subst hx
        simp only [if_pos rfl] at ih
        simp [eraseA, hk, ih]
      · have hkx : ¬ k = x := fun h => hx h.symm
        simp [eraseA, hk, hx, ih, hkx]
    · by_cases hx : kv.1 = x
      · have : ¬ x = k := by rintro rfl; exact hk hx
        simp [eraseA, hk, hx, this]
      · simp [eraseA, hk, hx, ih]

theorem memA_iff (m : List (K × V)) (k : K) :
    memA m k = true ↔ ∃ v, lookupA m k = some v := by
  unfold memA
  cases h : lookupA m k <;> simp [h]

theorem memA_false_iff (m : List (K × V)) (k : K) :
    memA m k = false ↔ lookupA m k = none := by
  unfold memA
  cases h : lookupA m k <;> simp [h]

theorem lookupA_eq_none_of_not_mem_keys (m : List (K × V)) (k : K)
    (h : k ∉ m.map Prod.fst) : lookupA m k = none := by
  induction m with
  | nil => rfl
  | cons kv t ih =>
    simp only [List.map_cons, List.mem_cons] at h
    push_neg at h
    simp [Ne.symm h.1, ih h.2]

/-- Lookup into a filtered dict with duplicate-free keys: the unique entry
survives exactly when it passes the filter. -/
theorem lookupA_filter (m : List (K × V)) (p : K × V → Bool) (k : K)
    (hnd : (m.map Prod.fst).Nodup) :
    lookupA (m.filter p) k =
      match lookupA m k with
      | some v => if p (k, v) then some v else none
      | none => none := by
  induction m with
  | nil => simp
  | cons kv t ih =>
    simp only [List.map_cons, List.nodup_cons] at hnd
    obtain ⟨hk1, hnd'⟩ := hnd
    by_cases h : kv.1 = k
    · subst h
      have ht : lookupA t kv.1 = none := lookupA_eq_none_of_not_mem_keys t kv.1 hk1
      by_cases hp : p kv
      · simp [List.filter, hp, ht]
      · simp [List.filter, hp, ih hnd', ht]
    · by_cases hp : p kv
      · simp [List.filter, hp, h, ih hnd']
      · simp [List.filter, hp, h, ih hnd']

/-- Lookup into a key-preserving map whose new values depend only on the key. -/
theorem lookupA_map_keyed {W : Type} (m : List (K × V)) (g : K → W) (k : K) :
    lookupA (m.map (fun kv => (kv.1, g kv.1))) k =
      (lookupA m k).map (fun _ => g k) := by
  induction m with
  | nil => simp
  | cons kv t ih =>
    by_cases h : kv.1 = k
    · subst h; simp
    · simp [h, ih]

/-! ### Behaviour of the `_merge_changes` loops -/

theorem lookupA_insertUnlessInLoop (skip_dict src acc : List (Nat × Nat))
    (k : Nat) (hnd : (src.map Prod.fst).Nodup) :
    lookupA (insertUnlessInLoop skip_dict src acc) k =
      if memA src k && !memA skip_dict k then lookupA src k
      else lookupA acc k := by
  induction src generalizing acc with
  | nil => simp [insertUnlessInLoop, memA]
  | cons kv t ih =>
    simp only [List.map_cons, List.nodup_cons] at hnd
    obtain ⟨hk1, hnd'⟩ := hnd
    have step : insertUnlessInLoop skip_dict (kv :: t) acc =
        insertUnlessInLoop skip_dict t
          (if memA skip_dict kv.1 then acc else insertA acc kv.1 kv.2) := by
      simp [insertUnlessInLoop]
    rw [step, ih _ hnd']
    by_cases hkk : kv.1 = k
    · subst hkk
      have ht : lookupA t kv.1 = none :=
        lookupA_eq_none_of_not_mem_keys t kv.1 hk1
      have hmt : memA t kv.1 = false := by simp [memA, ht]
      have hmem : memA (kv :: t) kv.1 = true := by simp [memA]
      by_cases hs : memA skip_dict kv.1
      · simp [hmt, hs]
      · have hsf : memA skip_dict kv.1 = false := by simpa using hs
        simp [hmt, hsf, hmem, lookupA_insertA]
    · have hacc : lookupA (if memA skip_dict kv.1 then acc
          else insertA acc kv.1 kv.2) k = lookupA acc k := by
        by_cases hs : memA skip_dict kv.1
        · simp [hs]
        · simp [hs, lookupA_insertA, Ne.symm hkk]
      have hm : memA (kv :: t) k = memA t k := by simp [memA, hkk]
      rw [hacc, hm]
      by_cases hc : (memA t k && !memA skip_dict k) = true
      · simp [hc, hkk]
      · simp only [Bool.not_eq_true] at hc
        simp [hc, hkk]

theorem lookupA_removeIfInLoop (cond_dict src acc : List (Nat × Nat))
    (k : Nat) :
    lookupA (removeIfInLoop cond_dict src acc) k =
      if memA src k && memA cond_dict k then none
      else lookupA acc k := by
  induction src generalizing acc with
  | nil => simp [removeIfInLoop, memA]
  | cons kv t ih =>
    have step : removeIfInLoop cond_dict (kv :: t) acc =
        removeIfInLoop cond_dict t
          (if memA cond_dict kv.1 then eraseA acc kv.1 else acc) := by
      simp [removeIfInLoop]
    rw [step, ih]
    by_cases hkk : kv.1 = k
    · subst hkk
      have hmem : memA (kv :: t) kv.1 = true := by simp [memA]
      by_cases hc : memA cond_dict kv.1
      · by_cases hmt : memA t kv.1
        · simp [hmem, hc, hmt]
        · simp only [Bool.not_eq_true] at hmt
          simp [hmem, hc, hmt, lookupA_eraseA]
      · simp [hmem, hc]
    · have hm : memA (kv :: t) k = memA t k := by simp [memA, hkk]
      by_cases hc : memA cond_dict kv.1
      · rw [if_pos hc, lookupA_eraseA]
        simp [hm, Ne.symm hkk, hkk]
      · simp [hm, hc]

/-! ### Properties of the spec-modelled change classifier -/

theorem lookupA_additions (base variant : List (Nat × Nat)) (k : Nat)
    (hv : (variant.map Prod.fst).Nodup) :
    lookupA (computeChanges base variant).additions k =
      match lookupA variant k with
      | some v => if memA base k then none else some v
      | none => none := by
  unfold computeChanges
  rw [lookupA_filter _ _ _ hv]
  cases hvk : lookupA variant k with
  | none => simp
  | some v => by_cases h : memA base k <;> simp [h]

theorem lookupA_removals (base variant : List (Nat × Nat)) (k : Nat)
    (hb : (base.map Prod.fst).Nodup) :
    lookupA (computeChanges base variant).removals k =
      match lookupA base k with
      | some v => if memA variant k then none else some v
      | none => none := by
  unfold computeChanges
  rw [lookupA_filter _ _ _ hb]
  cases hbk : lookupA base k with
  | none => simp
  | some v => by_cases h : memA variant k <;> simp [h]

theorem lookupA_mutations (base variant : List (Nat × Nat)) (k : Nat)
    (hv : (variant.map Prod.fst).Nodup) :
    lookupA (computeChanges base variant).mutations k =
      match lookupA variant k with
      | some v =>
        match lookupA base k with
        | some u => if u = v then none else some v
        | none => none
      | none => none := by
  unfold computeChanges
  rw [lookupA_filter _ _ _ hv]
  cases hvk : lookupA variant k with
  | none => simp
  | some v =>
    cases hbk : lookupA base k with
    | none => simp [hbk]
    | some u => by_cases h : u = v <;> simp [hbk, h]

theorem nodup_keys_filter (m : List (Nat × Nat)) (p : Nat × Nat → Bool)
    (h : (m.map Prod.fst).Nodup) : ((m.filter p).map Prod.fst).Nodup :=
  List.Nodup.sublist ((m.filter_sublist).map Prod.fst) h

/-- Chaining the three `_merge_changes` loop lemmas: the merged dict looked
up at any key, as a nested conditional (the last loop examined first). -/
theorem lookupA_merge_changes (aMap mMap dMap : List (Nat × Nat)) (k : Nat)
    (hd : (dMap.map Prod.fst).Nodup) :
    lookupA (merge_changes (branchChanges aMap mMap dMap) mMap) k =
      (if memA (computeChanges aMap dMap).mutations k &&
          !memA (computeChanges aMap mMap).mutations k then
         lookupA (computeChanges aMap dMap).mutations k
       else if memA (computeChanges aMap dMap).removals k &&
          memA (computeChanges aMap mMap).unchanged k then none
       else if memA (computeChanges aMap dMap).additions k &&
          !memA (computeChanges aMap mMap).additions k then
         lookupA (computeChanges aMap dMap).additions k
       else lookupA mMap k) := by
  have hndM : (((computeChanges aMap dMap).mutations).map Prod.fst).Nodup :=
    nodup_keys_filter _ _ hd
  have hndA : (((computeChanges aMap dMap).additions).map Prod.fst).Nodup :=
    nodup_keys_filter _ _ hd
  unfold merge_changes branchChanges
  rw [lookupA_insertUnlessInLoop _ _ _ _ hndM, lookupA_removeIfInLoop,
    lookupA_insertUnlessInLoop _ _ _ _ hndA]

theorem lookupA_map_of_lookupA {W : Type} (l : List (Nat × Nat))
    (g : Nat × Nat → W) (k : Nat) (v : Nat) (h : lookupA l k = some v) :
    lookupA (l.map (fun p => (p.1, g p))) k = some (g (k, v)) := by
  induction l with
  | nil => simp at h
  | cons p t ih =>
    by_cases hpk : p.1 = k
    · simp only [lookupA_cons, hpk, if_pos rfl] at h
      have hp : (k, v) = p := by
        rw [← hpk, ← Option.some_inj.mp h]
      simp [hpk, hp]
    · simp only [lookupA_cons, if_neg hpk] at h
      simp [hpk, ih h]

theorem lookupA_map_entry {W : Type} (l : List (Nat × Nat))
    (g : Nat × Nat → W) (k : Nat) (w : W)
    (h : lookupA (l.map (fun p => (p.1, g p))) k = some w) :
    ∃ v, lookupA l k = some v ∧ w = g (k, v) := by
  induction l with
  | nil => simp at h
  | cons p t ih =>
    by_cases hpk : p.1 = k
    · simp only [List.map_cons, lookupA_cons, hpk, if_pos rfl] at h
      refine ⟨p.2, by simp [hpk], ?_⟩
      have : (k, p.2) = p := by rw [← hpk]
      rw [this]
      exact (Option.some_inj.mp h).symm
    · simp only [List.map_cons, lookupA_cons, hpk, if_neg hpk] at h
      obtain ⟨v, hv, hw⟩ := ih h
      exact ⟨v, by simp [hpk, hv], hw⟩

theorem lookupA_unchanged (base variant : List (Nat × Nat)) (k : Nat)
    (hv : (variant.map Prod.fst).Nodup) :
    lookupA (computeChanges base variant).unchanged k =
      match lookupA variant k with
      | some v => if lookupA base k = some v then some v else none
      | none => none := by
  unfold computeChanges
  rw [lookupA_filter _ _ _ hv]
  cases hvk : lookupA variant k with
  | none => simp
  | some v => by_cases h : lookupA base k = some v <;> simp [h]

/-! ## Lemmas on the stable descending sort of `_determine_ancestors` -/

theorem length_insertByTimeDesc (x : String × Nat) (s : List (String × Nat)) :
    (insertByTimeDesc x s).length = s.length + 1 := by
  induction s with
  | nil => rfl
  | cons y ys ih =>
    unfold insertByTimeDesc
    by_cases h : y.2 > x.2 <;> simp [h, ih]

theorem sortByTimeDesc_ne_nil (l : List (String × Nat)) (h : l ≠ []) :
    sortByTimeDesc l ≠ [] := by
  cases l with
  | nil => exact absurd rfl h
  | cons x t =>
    have : (sortByTimeDesc (x :: t)).length =
        (sortByTimeDesc t).length + 1 := by
      simp [sortByTimeDesc, length_insertByTimeDesc]
    intro hnil
    rw [hnil] at this
    simp at this

theorem head_insertByTimeDesc (x y : String × Nat)
    (ys : List (String × Nat)) :
    (insertByTimeDesc x (y :: ys)).head? =
      some (if y.2 > x.2 then y else x) := by
  unfold insertByTimeDesc
  by_cases h : y.2 > x.2 <;> simp [h]

/-- The head of the stable descending sort is the *first* element of the
input attaining the maximal time: every element's time is `≤` its time, and
every strictly earlier element's time is strictly smaller. -/
theorem sortByTimeDesc_head_spec (l : List (String × Nat)) (hne : l ≠ []) :
    ∃ pre best post, l = pre ++ best :: post ∧
      (sortByTimeDesc l).head? = some best ∧
      (∀ z ∈ l, z.2 ≤ best.2) ∧
      (∀ z ∈ pre, z.2 < best.2) := by
  induction l with
  | nil => exact absurd rfl hne
  | cons x t ih =>
    cases t with
    | nil =>
      refine ⟨[], x, [], by simp, by simp [sortByTimeDesc, insertByTimeDesc],
        ?_, by simp⟩
      intro z hz
      simp only [List.mem_singleton] at hz
      simp [hz]
    | cons y0 t0 =>
      obtain ⟨pre', best', post', hsplit', hhead', hmax', hfirst'⟩ :=
        ih (by simp)
      have hsne : sortByTimeDesc (y0 :: t0) ≠ [] :=
        sortByTimeDesc_ne_nil _ (by simp)
      obtain ⟨z, zs, hz⟩ := List.exists_cons_of_ne_nil hsne
      have hzval : z = best' := by
        rw [hz] at hhead'
        simpa using hhead'
      subst hzval
      have hstep : sortByTimeDesc (x :: y0 :: t0) =
          insertByTimeDesc x (sortByTimeDesc (y0 :: t0)) := rfl
      by_cases hcmp : z.2 > x.2
      · refine ⟨x :: pre', z, post', by simp [hsplit'], ?_, ?_, ?_⟩
        · rw [hstep, hz, head_insertByTimeDesc, if_pos hcmp]
        · intro w hw
          rcases List.mem_cons.mp hw with hwx | hwt
          · rw [hwx]; omega
          · exact hmax' w hwt
        · intro w hw
          rcases List.mem_cons.mp hw with hwx | hwp
          · rw [hwx]; omega
          · exact hfirst' w hwp
      · refine ⟨[], x, y0 :: t0, by simp, ?_, ?_, by simp⟩
        · rw [hstep, hz, head_insertByTimeDesc, if_neg hcmp]
        · intro w hw
          rcases List.mem_cons.mp hw with hwx | hwt
          · rw [hwx]
          · have := hmax' w hwt
            omega

/-! ## Claim C3: merge-base choice -/

/-- Claim C3 counterexample: With two common ancestors of equal commit time,
the choice of `_determine_ancestors` depends on the iteration order of the
ancestor set: order `[("b",5), ("a",5)]` yields `"b"` while
`[("a",5), ("b",5)]` yields `"a"`.  The claim's tie-break — lexicographic
digest order, which would pick `"a"` in both cases — does not hold. -/
theorem determine_common_ancestor_not_lex_on_ties :
    determine_common_ancestor [("b", 5), ("a", 5)] = some "b" ∧
    determine_common_ancestor [("a", 5), ("b", 5)] = some "a" := by
  exact ⟨rfl, rfl⟩

/-- Claim C3 amended: For every nonempty common-ancestor list (in
set-iteration order), the merge base chosen by `_determine_ancestors` is a
common ancestor with maximal commit time; when several share that maximal
time, the stable sort keeps their iteration order, so the chosen one is the
*first in iteration order* among the maxima — not the lexicographically
least digest. -/
theorem determine_common_ancestor_first_max (l : List (String × Nat))
    (hne : l ≠ []) :
    ∃ pre best post, l = pre ++ best :: post ∧
      determine_common_ancestor l = some best.1 ∧
      (∀ z ∈ l, z.2 ≤ best.2) ∧
      (∀ z ∈ pre, z.2 < best.2) := by
  obtain ⟨pre, best, post, hsplit, hhead, hmax, hfirst⟩ :=
    sortByTimeDesc_head_spec l hne
  exact ⟨pre, best, post, hsplit,
    by simp [determine_common_ancestor, hhead], hmax, hfirst⟩

theorem determine_common_ancestor_first_max_witness :
    ([("b", 5), ("a", 5)] : List (String × Nat)) ≠ [] ∧
    (∃ pre best post,
      ([("b", 5), ("a", 5)] : List (String × Nat)) =
        pre ++ best :: post ∧
      determine_common_ancestor [("b", 5), ("a", 5)] = some best.1 ∧
      (∀ z ∈ ([("b", 5), ("a", 5)] : List (String × Nat)), z.2 ≤ best.2) ∧
      (∀ z ∈ pre, z.2 < best.2)) :=
  ⟨by decide, determine_common_ancestor_first_max [("b", 5), ("a", 5)]
    (by decide)⟩

/-! ## Claim C4: chunk-shape byte bound -/

theorem chunkLoop_sound (itemsize maxB fuel : Nat) :
    ∀ (shape : List Nat) (idx nbytes : Nat) (K : List Nat) (nb : Nat),
      nbytes = prodShape shape * itemsize →
      chunkLoop itemsize maxB fuel shape idx nbytes = some (K, nb) →
      nb = prodShape K * itemsize ∧ nb ≤ maxB := by
  induction fuel with
  | zero =>
    intro shape idx nbytes K nb hinv h
    unfold chunkLoop at h
    by_cases hle : nbytes ≤ maxB
    · rw [if_pos hle] at h
      obtain ⟨h1, h2⟩ := Prod.mk.injEq .. ▸ Option.some_inj.mp h
      subst h1; subst h2
      exact ⟨hinv, hle⟩
    · rw [if_neg hle] at h
      cases h
  | succ f ih =>
    intro shape idx nbytes K nb hinv h
    unfold chunkLoop at h
    by_cases hle : nbytes ≤ maxB
    · rw [if_pos hle] at h
      obtain ⟨h1, h2⟩ := Prod.mk.injEq .. ▸ Option.some_inj.mp h
      subst h1; subst h2
      exact ⟨hinv, hle⟩
    · rw [if_neg hle] at h
      simp only at h
      by_cases hdim :
          shape.getD (if idx ≥ shape.length then 0 else idx) 0 ≤ 2
      · rw [if_pos hdim] at h
        exact ih shape _ nbytes K nb hinv h
      · rw [if_neg hdim] at h
        exact ih _ _ _ K nb rfl h

/-- Claim C4 counterexample: For sample shape `(4,4)`, an 8-byte dtype and a
16-byte budget — a shape with axes exceeding 2 — the round-robin halving
loop never terminates: both axes decay to 2 and are skipped forever while
the chunk still needs 32 bytes > 16, so no chunk shape is ever returned,
contradicting the claim for this input. -/
theorem chunk_opts_diverges_on_4x4 :
    chunkOptsNeverReturns [4, 4] 8 16 := by
  have hdim : ∀ w : Nat, ([2, 2] : List Nat).getD w 0 ≤ 2 := by
    intro w
    match w with
    | 0 => decide
    | 1 => decide
    | w + 2 => simp [List.getD]
  have hsmall : ∀ (fuel idx : Nat),
      chunkLoop 8 16 fuel [2, 2] idx 32 = none := by
    intro fuel
    induction fuel with
    | zero => intro idx; rfl
    | succ f ih =>
      intro idx
      simp only [chunkLoop]
      rw [if_neg (by omega : ¬ (32 ≤ 16)), if_pos (hdim _)]
      exact ih _
  intro fuel
  match fuel with
  | 0 => rfl
  | 1 => rfl
  | 2 => rfl
  | f + 3 =>
    have hstep : chunk_opts (f + 3) [4, 4] 8 16 =
        chunkLoop 8 16 (f + 1) [2, 2] 2 32 := rfl
    rw [hstep]
    exact hsmall (f + 1) 2

/-- Claim C4 amended: Whenever the round-robin halving loop of `_chunk_opts`
terminates (it does not for every shape with an axis exceeding 2 — see the
counterexample), the returned chunk shape `K` and byte count `nb` satisfy
`nb = prod(K) * dtype_bytes ≤ max_chunk_nbytes`; no axis-size hypothesis is
needed. -/
theorem chunk_opts_bound (fuel : Nat) (sample_shape : List Nat)
    (itemsize maxB : Nat) (K : List Nat) (nb : Nat)
    (h : chunk_opts fuel sample_shape itemsize maxB = some (K, nb)) :
    nb = prodShape K * itemsize ∧ nb ≤ maxB :=
  chunkLoop_sound itemsize maxB fuel sample_shape 0 _ K nb rfl h

theorem chunk_opts_bound_witness :
    chunk_opts 10 [50] 8 100 = some ([12], 96) ∧
    96 = prodShape [12] * 8 ∧ 96 ≤ 100 :=
  ⟨rfl, (chunk_opts_bound 10 [50] 8 100 [12] 96 rfl).1,
    (chunk_opts_bound 10 [50] 8 100 [12] 96 rfl).2⟩

/-! ## Claim C5: the cursor advances before the write -/

/-- Claim C5 counterexample: The first half of the claim — "for every newly
allocated container the slab at (collection 0, row 0) is never used for the
first sample written to that container" — fails for containers that
`write_data` itself allocates: with no writer container open, `write_data`
calls `create_schema` (which leaves the cursor at `(0,0)`) and then writes
at the cursor, so the first sample of the fresh container (uid 7) lands
exactly at slab `(0, 0)`. -/
theorem write_data_uses_first_slab :
    (write_data 10 5 ⟨none, 0, 0, 0, 0, 7, []⟩).2 = (7, 0, 0) := rfl

/-- Claim C5 amended: `write_data` advances the cursor before writing, so
(a) when a container is already open with a fresh cursor `(0,0)` (as left
by an external `create_schema`) and room in the collection, the first
sample lands at row 1 — slab `(0,0)` of *such* a container is skipped; and
(b) when the cursor advance overflows the collection and drops
`collections_remaining` to ≤ 1, the old container's cursor attributes are
persisted and flushed, a new container is allocated, and the pending write
completes in the new container — at its slab `(0,0)`. -/
theorem write_data_cursor_protocol (numC colS : Nat) (st : WriterState)
    (uid : Nat) :
    (st.w_uid = some uid → st.hIdx = 0 → st.hNextPath = 0 →
      2 ≤ st.hMaxSize → (write_data numC colS st).2 = (uid, 0, 1)) ∧
    (st.w_uid = some uid → st.hIdx + 1 ≥ st.hMaxSize → st.hColsRemain ≤ 2 →
      (write_data numC colS st).1.flushedAttrs =
        (uid, st.hNextPath + 1, 0, st.hColsRemain - 1) :: st.flushedAttrs ∧
      (write_data numC colS st).1.w_uid = some st.nextUid ∧
      (write_data numC colS st).2 = (st.nextUid, 0, 0)) := by
  constructor
  · intro hw hidx hpath hmax
    have hcond : ¬ st.hMaxSize ≤ 1 := by omega
    simp [write_data, hw, hcond, hpath, hidx]
  · intro hw hadv hcols
    have hc2 : st.hColsRemain - 1 ≤ 1 := by omega
    simp [write_data, hw, hadv, hc2, create_schema]

theorem write_data_cursor_protocol_witness :
    (write_data 10 5 ⟨some 3, 0, 0, 10, 5, 4, []⟩).2 = (3, 0, 1) ∧
    (write_data 10 5 ⟨some 3, 8, 4, 2, 5, 4, []⟩).1.flushedAttrs =
      [(3, 9, 0, 1)] ∧
    (write_data 10 5 ⟨some 3, 8, 4, 2, 5, 4, []⟩).2 = (4, 0, 0) :=
  ⟨(write_data_cursor_protocol 10 5 ⟨some 3, 0, 0, 10, 5, 4, []⟩ 3).1
      rfl rfl rfl (by decide),
   ((write_data_cursor_protocol 10 5 ⟨some 3, 8, 4, 2, 5, 4, []⟩ 3).2
      rfl (by decide) (by decide)).1,
   ((write_data_cursor_protocol 10 5 ⟨some 3, 8, 4, 2, 5, 4, []⟩ 3).2
      rfl (by decide) (by decide)).2.2⟩

/-! ## Lemmas on the location-record codec -/

theorem charVal_digitChar (d : Nat) (hd : d < 10) :
    charVal (digitChar d) = d := by
  interval_cases d <;> decide

theorem digitChar_ne_seps (d : Nat) (hd : d < 10) :
    digitChar d ≠ LISTSEP ∧ digitChar d ≠ HASHSEP ∧ digitChar d ≠ SLICESEP := by
  interval_cases d <;> decide

theorem charsToNat_natChars (n : Nat) : charsToNat (natChars n) = n := by
  by_cases h : n = 0
  · subst h; decide
  · unfold natChars charsToNat
    rw [if_neg h, List.map_reverse, List.reverse_reverse, List.map_map]
    have hmap : (Nat.digits 10 n).map (charVal ∘ digitChar) =
        Nat.digits 10 n := by
      conv_rhs => rw [← List.map_id (Nat.digits 10 n)]
      apply List.map_congr_left
      intro d hd
      exact charVal_digitChar d (Nat.digits_lt_base (by norm_num) hd)
    rw [hmap, Nat.ofDigits_digits]

theorem sep_not_mem_natChars (n : Nat) (c : Char) (hc : c ∈ natChars n) :
    c ≠ LISTSEP ∧ c ≠ HASHSEP ∧ c ≠ SLICESEP := by
  unfold natChars at hc
  by_cases h : n = 0
  · rw [if_pos h] at hc
    simp only [List.mem_singleton] at hc
    subst hc; refine ⟨by decide, by decide, by decide⟩
  · rw [if_neg h, List.mem_reverse] at hc
    obtain ⟨d, hd, hdc⟩ := List.mem_map.mp hc
    rw [← hdc]
    exact digitChar_ne_seps d (Nat.digits_lt_base (by norm_num) hd)

theorem listsep_not_mem_natChars (n : Nat) : LISTSEP ∉ natChars n :=
  fun hc => (sep_not_mem_natChars n LISTSEP hc).1 rfl

theorem slicesep_not_mem_natChars (n : Nat) : SLICESEP ∉ natChars n :=
  fun hc => (sep_not_mem_natChars n SLICESEP hc).2.2 rfl

theorem natChars_ne_nil (n : Nat) : natChars n ≠ [] := by
  unfold natChars
  by_cases h : n = 0
  · simp [h]
  · rw [if_neg h]
    simp [Nat.digits_ne_nil_iff_ne_zero, h]

theorem slicesep_not_mem_shapeChars (shape : List Nat) :
    SLICESEP ∉ shapeChars shape := by
  induction shape with
  | nil => simp [shapeChars]
  | cons n rest ih =>
    cases rest with
    | nil => simpa [shapeChars] using slicesep_not_mem_natChars n
    | cons m r2 =>
      simp only [shapeChars, List.mem_append, List.mem_cons]
      push_neg
      exact ⟨slicesep_not_mem_natChars n, by decide, ih⟩

theorem shapeChars_ne_nil (shape : List Nat) (h : shape ≠ []) :
    shapeChars shape ≠ [] := by
  cases shape with
  | nil => exact absurd rfl h
  | cons n rest =>
    cases rest with
    | nil => simpa [shapeChars] using natChars_ne_nil n
    | cons m r2 =>
      simp only [shapeChars]
      intro hx
      exact natChars_ne_nil n (List.append_eq_nil.mp hx).1

theorem pySplitFirst_append (sep : Char) (a b : List Char) (ha : sep ∉ a) :
    pySplitFirst sep (a ++ sep :: b) = (a, b) := by
  induction a with
  | nil => simp [pySplitFirst]
  | cons c t ih =>
    simp only [List.mem_cons, not_or] at ha
    have hcs : ¬ c = sep := fun h => ha.1 h.symm
    simp [pySplitFirst, hcs, ih ha.2]

theorem pySplitLast_append (sep : Char) (a b : List Char) (hb : sep ∉ b) :
    pySplitLast sep (a ++ sep :: b) = (a, b) := by
  induction a with
  | nil =>
    simp [pySplitLast, hb]
  | cons c t ih =>
    have hmem : sep ∈ t ++ sep :: b := by simp
    simp [pySplitLast, hmem, ih]

theorem pySplit_ne_nil (sep : Char) (l : List Char) : pySplit sep l ≠ [] := by
  cases l with
  | nil => simp [pySplit]
  | cons c t =>
    simp only [pySplit]
    cases pySplit sep t with
    | nil => simp
    | cons h r => by_cases hc : c = sep <;> simp [hc]

theorem pySplit_no_sep (sep : Char) (a : List Char) (ha : sep ∉ a) :
    pySplit sep a = [a] := by
  induction a with
  | nil => rfl
  | cons c t ih =>
    simp only [List.mem_cons, not_or] at ha
    have hcs : ¬ c = sep := fun h => ha.1 h.symm
    simp [pySplit, ih ha.2, hcs]

theorem pySplit_append (sep : Char) (a b : List Char) (ha : sep ∉ a) :
    pySplit sep (a ++ sep :: b) = a :: pySplit sep b := by
  induction a with
  | nil =>
    obtain ⟨h, r, hr⟩ := List.exists_cons_of_ne_nil (pySplit_ne_nil sep b)
    simp [pySplit, hr]
  | cons c t ih =>
    simp only [List.mem_cons, not_or] at ha
    have hcs : ¬ c = sep := fun h => ha.1 h.symm
    simp only [List.cons_append, pySplit, List.append_eq]
    rw [ih ha.2]
    simp [hcs]

theorem pySplit_shapeChars (shape : List Nat) :
    shape ≠ [] → pySplit LISTSEP (shapeChars shape) = shape.map natChars := by
  induction shape with
  | nil => intro h; exact absurd rfl h
  | cons n rest ih =>
    intro _
    cases rest with
    | nil =>
      simpa [shapeChars] using
        pySplit_no_sep LISTSEP (natChars n) (listsep_not_mem_natChars n)
    | cons m r2 =>
      simp only [shapeChars]
      rw [pySplit_append LISTSEP _ _ (listsep_not_mem_natChars n),
        ih (by simp)]
      simp

/-! ## Claim C9: location-record round trip -/

/-- Claim C9: For every uid (a generated uid: free of the hash separator
byte), dataset number, dataset index and sample shape tuple, decoding the
encoded location record recovers the same uid, dataset, dataset index (as
their decimal string forms, which parse back to the same numbers, as
`read_data`'s `int(...)` does) and the same shape; the rank-0 (empty) shape
encodes to an empty shape field and decodes back to `()`. -/
theorem hdf5_encode_decode_roundtrip (uid : List Char)
    (dataset dataset_idx : Nat) (shape : List Nat)
    (huid : HASHSEP ∉ uid) :
    hdf5_decode (hdf5_encode uid dataset dataset_idx shape) =
      some (uid, natChars dataset, natChars dataset_idx, shape) ∧
    charsToNat (natChars dataset) = dataset ∧
    charsToNat (natChars dataset_idx) = dataset_idx := by
  refine ⟨?_, charsToNat_natChars dataset, charsToNat_natChars dataset_idx⟩
  have hdrop : (FmtCode ++ [SEP] ++ uid ++ [HASHSEP] ++ natChars dataset ++
      [LISTSEP] ++ natChars dataset_idx ++ [SLICESEP] ++
      shapeChars shape).drop FmtCodeIdx =
      uid ++ HASHSEP :: (natChars dataset ++ LISTSEP ::
        (natChars dataset_idx ++ SLICESEP :: shapeChars shape)) := by
    simp [FmtCode, SEP, FmtCodeIdx]
  have hassoc : natChars dataset ++ LISTSEP ::
      (natChars dataset_idx ++ SLICESEP :: shapeChars shape) =
      (natChars dataset ++ LISTSEP :: natChars dataset_idx) ++
        SLICESEP :: shapeChars shape := by
    simp
  simp only [hdf5_decode, hdf5_encode, hdrop,
    pySplitFirst_append _ _ _ huid, hassoc,
    pySplitLast_append _ _ _ (slicesep_not_mem_shapeChars shape),
    pySplit_append _ _ _ (listsep_not_mem_natChars dataset),
    pySplit_no_sep _ _ (listsep_not_mem_natChars dataset_idx)]
  by_cases hsh : shape = []
  · subst hsh
    simp [shapeChars]
  · rw [if_neg (shapeChars_ne_nil shape hsh), pySplit_shapeChars shape hsh,
      List.map_map]
    have hmap : shape.map (charsToNat ∘ natChars) = shape := by
      conv_rhs => rw [← List.map_id shape]
      apply List.map_congr_left
      intro x _
      exact charsToNat_natChars x
    rw [hmap]

theorem hdf5_encode_decode_roundtrip_witness :
    HASHSEP ∉ (['a', 'x', '2'] : List Char) ∧
    hdf5_decode (hdf5_encode ['a', 'x', '2'] 0 12 []) =
      some (['a', 'x', '2'], natChars 0, natChars 12, []) ∧
    charsToNat (natChars 0) = 0 ∧ charsToNat (natChars 12) = 12 :=
  ⟨by decide,
   (hdf5_encode_decode_roundtrip ['a', 'x', '2'] 0 12 [] (by decide)).1,
   (hdf5_encode_decode_roundtrip ['a', 'x', '2'] 0 12 [] (by decide)).2.1,
   (hdf5_encode_decode_roundtrip ['a', 'x', '2'] 0 12 [] (by decide)).2.2⟩

/-! ## Lemmas on the fetch-data grouping -/

theorem mem_appendGroup (g : List (Nat × List Nat)) (sh dg sh' dg' : Nat) :
    dg' ∈ (lookupA (appendGroup g sh dg) sh').getD [] ↔
      (dg' ∈ (lookupA g sh').getD [] ∨ (sh' = sh ∧ dg' = dg)) := by
  unfold appendGroup
  cases hg : lookupA g sh with
  | some ds =>
    rw [lookupA_insertA]
    by_cases hsh : sh' = sh
    · subst hsh
      simp [hg]
    · simp [hsh]
  | none =>
    rw [lookupA_append]
    by_cases hsh : sh' = sh
    · subst hsh
      simp [hg]
    · cases hg' : lookupA g sh' with
      | some ds' => simp [hg', hsh]
      | none => simp [hg', hsh, Ne.symm hsh]

theorem fetch_data_groups_aux (hashMap : List (Nat × HashSpec)) :
    ∀ (l : List Nat) (g₀ : List (Nat × List Nat)),
      (∀ dg ∈ l, memA hashMap dg = true) →
      ∃ g, (l.foldlM (fun groups digest =>
          match lookupA hashMap digest with
          | none => Except.error "KeyError"
          | some hashSpec =>
            if hashSpec.backend = "50" then
              Except.ok (appendGroup groups hashSpec.schema_hash digest)
            else Except.ok groups) g₀ :
            Except String (List (Nat × List Nat))) = Except.ok g ∧
        ∀ sh dg, (dg ∈ (lookupA g sh).getD []) ↔
          (dg ∈ (lookupA g₀ sh).getD [] ∨
           (dg ∈ l ∧ lookupA hashMap dg = some ⟨"50", sh⟩)) := by
  intro l
  induction l with
  | nil =>
    intro g₀ hall
    refine ⟨g₀, rfl, ?_⟩
    intro sh dg
    simp
  | cons d t ih =>
    intro g₀ hall
    have hd := hall d (by simp)
    obtain ⟨spec, hspec⟩ := (memA_iff _ _).mp hd
    by_cases hb : spec.backend = "50"
    · have hspec50 : lookupA hashMap d = some ⟨"50", spec.schema_hash⟩ := by
        rw [hspec, ← hb]
      obtain ⟨g, hfold, hiff⟩ := ih (appendGroup g₀ spec.schema_hash d)
        (fun dg hdg => hall dg (by simp [hdg]))
      refine ⟨g, ?_, ?_⟩
      · rw [List.foldlM_cons, hspec]
        simp only [hb, if_pos]
        simpa using hfold
      · intro sh dg
        rw [hiff sh dg, mem_appendGroup]
        constructor
        · rintro ((h1 | ⟨rfl, rfl⟩) | ⟨hdg, hlook⟩)
          · exact Or.inl h1
          · exact Or.inr ⟨by simp, hspec50⟩
          · exact Or.inr ⟨List.mem_cons_of_mem _ hdg, hlook⟩
        · rintro (h1 | ⟨hdg, hlook⟩)
          · exact Or.inl (Or.inl h1)
          · rcases List.mem_cons.mp hdg with rfl | hmem
            · rw [hspec50] at hlook
              have hsh : spec.schema_hash = sh :=
                congrArg HashSpec.schema_hash (Option.some_inj.mp hlook)
              exact Or.inl (Or.inr ⟨hsh.symm, rfl⟩)
            · exact Or.inr ⟨hmem, hlook⟩
    · obtain ⟨g, hfold, hiff⟩ := ih g₀
        (fun dg hdg => hall dg (by simp [hdg]))
      refine ⟨g, ?_, ?_⟩
      · rw [List.foldlM_cons, hspec]
        simp only [hb, if_neg]
        simpa using hfold
      · intro sh dg
        rw [hiff sh dg]
        constructor
        · rintro (h1 | ⟨hdg, hlook⟩)
          · exact Or.inl h1
          · exact Or.inr ⟨List.mem_cons_of_mem _ hdg, hlook⟩
        · rintro (h1 | ⟨hdg, hlook⟩)
          · exact Or.inl h1
          · rcases List.mem_cons.mp hdg with rfl | hmem
            · rw [hspec] at hlook
              have hbe : spec.backend = "50" :=
                congrArg HashSpec.backend (Option.some_inj.mp hlook)
              exact absurd hbe hb
            · exact Or.inr ⟨hmem, hlook⟩

theorem fetch_data_loop_empties (saved : Nat → List Nat → List Nat) :
    ∀ (fuel schema : Nat) (hashes r : List Nat),
      fetch_data_loop saved fuel schema hashes = some r → r = [] := by
  intro fuel
  induction fuel with
  | zero =>
    intro schema hashes r h
    unfold fetch_data_loop at h
    by_cases he : hashes.isEmpty
    · rw [if_pos he] at h
      rw [← Option.some_inj.mp h]
      exact List.isEmpty_iff.mp he
    · rw [if_neg he] at h
      cases h
  | succ f ih =>
    intro schema hashes r h
    unfold fetch_data_loop at h
    by_cases he : hashes.isEmpty
    · rw [if_pos he] at h
      rw [← Option.some_inj.mp h]
      exact List.isEmpty_iff.mp he
    · rw [if_neg he] at h
      exact ih schema _ r h

/-! ## Claim C6: fetch-data requested digests and retry loop -/

/-- Claim C6 counterexample: `fetch_data` requests exactly the digests whose
hash-index entry names the *reference-only remote backend* `'50'`, not the
chunked backend `'00'` as claimed: with digest 1 recorded under backend
`"00"` (the chunked backend) and digest 2 under `"50"`, only digest 2 is
grouped and requested. -/
theorem fetch_data_skips_chunked_backend :
    fetch_data_groups [1, 2] [(1, ⟨"00", 9⟩), (2, ⟨"50", 9⟩)] =
      Except.ok [(9, [2])] ∧
    (lookupA [(1, (⟨"00", 9⟩ : HashSpec)), (2, ⟨"50", 9⟩)] 1).map
      HashSpec.backend = some "00" :=
  ⟨rfl, rfl⟩

/-- Claim C6 amended: `fetch_data` walks the commit's digest set and
requests tensor bytes for exactly those digests whose hash-index entry
names the reference-only remote backend `'50'` (data not yet present),
grouped by schema hash; and the per-schema loop repeatedly calls
`fetch_data`, subtracts the subset of digests the writer persisted, and
re-requests, exiting only when the remaining set is empty. -/
theorem fetch_data_requests_spec (digests : List Nat)
    (hashMap : List (Nat × HashSpec))
    (hall : ∀ dg ∈ digests, memA hashMap dg = true)
    (saved : Nat → List Nat → List Nat) (fuel schema : Nat)
    (hashes r : List Nat) :
    (∃ g, fetch_data_groups digests hashMap = Except.ok g ∧
      ∀ sh dg, (dg ∈ (lookupA g sh).getD []) ↔
        (dg ∈ digests ∧ lookupA hashMap dg = some ⟨"50", sh⟩)) ∧
    (fetch_data_loop saved fuel schema hashes = some r → r = []) ∧
    (hashes ≠ [] → fetch_data_loop saved (fuel + 1) schema hashes =
      fetch_data_loop saved fuel schema
        (hashes.filter (fun h => !(saved schema hashes).contains h))) := by
  refine ⟨?_, fetch_data_loop_empties saved fuel schema hashes r, ?_⟩
  · obtain ⟨g, hfold, hiff⟩ := fetch_data_groups_aux hashMap digests [] hall
    refine ⟨g, hfold, ?_⟩
    intro sh dg
    rw [hiff sh dg]
    simp
  · intro hne
    conv_lhs => unfold fetch_data_loop
    rw [if_neg (by simpa using hne)]

theorem fetch_data_requests_spec_witness :
    (∀ dg ∈ ([1, 2] : List Nat),
      memA [(1, (⟨"00", 9⟩ : HashSpec)), (2, ⟨"50", 9⟩)] dg = true) ∧
    ((∃ g, fetch_data_groups [1, 2]
        [(1, (⟨"00", 9⟩ : HashSpec)), (2, ⟨"50", 9⟩)] = Except.ok g ∧
      ∀ sh dg, (dg ∈ (lookupA g sh).getD []) ↔
        (dg ∈ ([1, 2] : List Nat) ∧
         lookupA [(1, (⟨"00", 9⟩ : HashSpec)), (2, ⟨"50", 9⟩)] dg =
           some ⟨"50", sh⟩)) ∧
    (fetch_data_loop (fun _ hs => hs) 1 9 [2] = some [] →
      ([] : List Nat) = []) ∧
    (([2] : List Nat) ≠ [] → fetch_data_loop (fun _ hs => hs) (1 + 1) 9 [2] =
      fetch_data_loop (fun _ hs => hs) 1 9
        (([2] : List Nat).filter
          (fun h => !(((fun (_ : Nat) (hs : List Nat) => hs) 9 [2]).contains
            h))))) :=
  ⟨by decide,
   fetch_data_requests_spec [1, 2] [(1, ⟨"00", 9⟩), (2, ⟨"50", 9⟩)]
     (by decide) (fun _ hs => hs) 1 9 [2] []⟩

/-! ## Claim C7: push missing-set discovery and the temp ref db -/

/-- Claim C7: The intent — building a temporary ref db per server-missing
commit and passing it with every `push_find_missing_*` call — is defeated
by a slip in `Remote.push` (remotes.py:403): the code reads
`self.env.refenv`, but the object only defines `_env`, so the first missing
commit raises `AttributeError` before any `push_find_missing_*` call is
issued (first conjunct; the second shows the intended attribute `_env`
resolves).  The duplicate `Repository.push` (repository.py:419-435) issues
the three calls but passes no temporary ref db at all (third conjunct). -/
theorem remote_push_attribute_error :
    remote_push_missing_calls ⟨[("_env", 0)]⟩ [] ["c1"] =
      Except.error "AttributeError: 'Remote' object has no attribute env" ∧
    getattrRemote ⟨[("_env", 0)]⟩ "_env" = Except.ok 0 ∧
    repository_push_missing_calls ["c1"] =
      [{ rpc := "push_find_missing_schemas", commit := "c1", tmpDb := none },
       { rpc := "push_find_missing_hash_records", commit := "c1",
         tmpDb := none },
       { rpc := "push_find_missing_labels", commit := "c1", tmpDb := none }]
    := ⟨rfl, rfl, rfl⟩

/-! ## Claim C8: fetch with equal heads is a no-op -/

/-- Claim C8: When the local branch exists and the server branch record
resolves with its head commit equal to the local head, both fetch
implementations return immediately — before any content is pulled — and
leave the whole local state, in particular the branch store, unchanged:
the remote-tracking branch is neither created nor updated. -/
theorem fetch_noop_when_heads_equal (server : ServerView)
    (remote branch : String) (c_bhistory : List String) (st : FetchState)
    (c : String)
    (hlocal : lookupA st.branches branch = some c)
    (hcode : (server.branchRecord branch).errorCode = 0)
    (hhead : (server.branchRecord branch).commit = c) :
    repository_fetch server remote branch c_bhistory st = (none, st) ∧
    remote_fetch server remote branch c_bhistory st = (some branch, st) := by
  constructor
  · simp [repository_fetch, hlocal, hcode, hhead]
  · simp [remote_fetch, hlocal, hhead]

theorem fetch_noop_when_heads_equal_witness :
    lookupA (FetchState.branches ⟨[("master", "h1")], []⟩) "master" =
      some "h1" ∧
    repository_fetch ⟨fun _ => ⟨0, "h1"⟩, fun _ => [], fun _ => []⟩
      "origin" "master" [] ⟨[("master", "h1")], []⟩ =
      (none, ⟨[("master", "h1")], []⟩) ∧
    remote_fetch ⟨fun _ => ⟨0, "h1"⟩, fun _ => [], fun _ => []⟩
      "origin" "master" [] ⟨[("master", "h1")], []⟩ =
      (some "master", ⟨[("master", "h1")], []⟩) :=
  ⟨rfl,
   (fetch_noop_when_heads_equal ⟨fun _ => ⟨0, "h1"⟩, fun _ => [], fun _ => []⟩
     "origin" "master" [] ⟨[("master", "h1")], []⟩ "h1" rfl rfl rfl).1,
   (fetch_noop_when_heads_equal ⟨fun _ => ⟨0, "h1"⟩, fun _ => [], fun _ => []⟩
     "origin" "master" [] ⟨[("master", "h1")], []⟩ "h1" rfl rfl rfl).2⟩

/-! ## Claim C1: conflicting merges abort atomically -/

/-- Claim C1: If `determine_conflicts` reports `conflict_found = true` for the
(ancestor, master, dev) commit contents, the merge raises an error and
aborts atomically: `_compute_merge_results` raises before
`_overwrite_stageenv` and `commit_records` run, so the staging area records
are not overwritten, no merge commit is written to the ref store, and the
master branch HEAD is unchanged — the whole repository state is returned
untouched. -/
theorem merge_conflict_aborts_atomically
    (master_branch masterHEAD devHEAD ancestorHEAD : String) (st : RepoState)
    (hc : determine_conflicts ((lookupA st.refs ancestorHEAD).getD default)
      ((lookupA st.refs masterHEAD).getD default)
      ((lookupA st.refs devHEAD).getD default) = true) :
    (∃ e, (three_way_merge master_branch masterHEAD devHEAD ancestorHEAD
        st).1 = Except.error e) ∧
    (three_way_merge master_branch masterHEAD devHEAD ancestorHEAD st).2
      = st := by
  simp only [three_way_merge, compute_merge_results, hc]
  exact ⟨⟨_, rfl⟩, rfl⟩

theorem merge_conflict_aborts_atomically_witness :
    determine_conflicts
      ((lookupA ([("a", ⟨[], [(0, 1)]⟩), ("m", ⟨[], [(0, 2)]⟩),
          ("d", ⟨[], [(0, 3)]⟩)] : List (String × CommitContents)) "a").getD
        default)
      ((lookupA ([("a", ⟨[], [(0, 1)]⟩), ("m", ⟨[], [(0, 2)]⟩),
          ("d", ⟨[], [(0, 3)]⟩)] : List (String × CommitContents)) "m").getD
        default)
      ((lookupA ([("a", ⟨[], [(0, 1)]⟩), ("m", ⟨[], [(0, 2)]⟩),
          ("d", ⟨[], [(0, 3)]⟩)] : List (String × CommitContents)) "d").getD
        default) = true ∧
    (three_way_merge "master" "m" "d" "a"
      ⟨default, [("master", "m")],
        [("a", ⟨[], [(0, 1)]⟩), ("m", ⟨[], [(0, 2)]⟩),
         ("d", ⟨[], [(0, 3)]⟩)], []⟩).2 =
      ⟨default, [("master", "m")],
        [("a", ⟨[], [(0, 1)]⟩), ("m", ⟨[], [(0, 2)]⟩),
         ("d", ⟨[], [(0, 3)]⟩)], []⟩ :=
  ⟨by decide,
   (merge_conflict_aborts_atomically "master" "m" "d" "a"
     ⟨default, [("master", "m")],
       [("a", ⟨[], [(0, 1)]⟩), ("m", ⟨[], [(0, 2)]⟩),
        ("d", ⟨[], [(0, 3)]⟩)], []⟩ (by decide)).2⟩

/-! ## Claim C2: per-key patch application rules -/

/-- Claim C2: In a (conflict-free) three-way merge, patch application starting
from master's map obeys exactly the stated rules, for every key `k`: a dev
addition whose key is not a master addition is inserted with dev's value; a
dev removal whose key is master-unchanged is deleted; a dev mutation whose
key is not a master mutation overwrites with dev's value; keys added or
mutated on master keep master's value; and (in `_compute_merge_results`) an
arrayset named in the merged schema dict but absent from master's datasets
contributes its entire sample map from dev. -/
theorem merge_patch_per_key_rules
    (aMap mMap dMap : List (Nat × Nat)) (k : Nat)
    (ha : (aMap.map Prod.fst).Nodup) (hm : (mMap.map Prod.fst).Nodup)
    (hd : (dMap.map Prod.fst).Nodup)
    (a m d res : CommitContents) (n : Nat)
    (hres : compute_merge_results a m d = Except.ok res)
    (hnm : memA m.datasets n = false) :
    ((memA (computeChanges aMap dMap).additions k = true →
       memA (computeChanges aMap mMap).additions k = false →
       lookupA (merge_changes (branchChanges aMap mMap dMap) mMap) k =
         lookupA dMap k) ∧
     (memA (computeChanges aMap dMap).removals k = true →
       memA (computeChanges aMap mMap).unchanged k = true →
       lookupA (merge_changes (branchChanges aMap mMap dMap) mMap) k =
         none) ∧
     (memA (computeChanges aMap dMap).mutations k = true →
       memA (computeChanges aMap mMap).mutations k = false →
       lookupA (merge_changes (branchChanges aMap mMap dMap) mMap) k =
         lookupA dMap k) ∧
     ((memA (computeChanges aMap mMap).additions k = true ∨
       memA (computeChanges aMap mMap).mutations k = true) →
       lookupA (merge_changes (branchChanges aMap mMap dMap) mMap) k =
         lookupA mMap k)) ∧
    (∀ dsc : DatasetContents, lookupA res.datasets n = some dsc →
       dsc.data = dataMap d n) := by
  have hAd := lookupA_additions aMap dMap k hd
  have hAm := lookupA_additions aMap mMap k hm
  have hRd := lookupA_removals aMap dMap k ha
  have hMd := lookupA_mutations aMap dMap k hd
  have hMm := lookupA_mutations aMap mMap k hm
  have hUm := lookupA_unchanged aMap mMap k hm
  have hmain := lookupA_merge_changes aMap mMap dMap k hd
  constructor
  · refine ⟨?_, ?_, ?_, ?_⟩
    · -- dev addition, not a master addition
      intro h1 h2
      obtain ⟨v, hv⟩ := (memA_iff _ _).mp h1
      rw [hAd] at hv
      cases hld : lookupA dMap k with
      | none => rw [hld] at hv; simp at hv
      | some w =>
        rw [hld] at hv
        by_cases hmA : memA aMap k
        · simp [hmA] at hv
        · have hla : lookupA aMap k = none :=
            (memA_false_iff _ _).mp (by simpa using hmA)
          have hmut : memA (computeChanges aMap dMap).mutations k = false := by
            rw [memA_false_iff, hMd, hld, hla]
          have hrem : memA (computeChanges aMap dMap).removals k = false := by
            rw [memA_false_iff, hRd, hla]
          rw [hmain, hmut, hrem, h1, h2]
          simp only [Bool.false_and, Bool.and_false, Bool.not_false,
            Bool.and_true, Bool.true_and, if_false, Bool.false_eq_true,
            if_true]
          rw [hAd, hld]
          simp [hmA]
    · -- dev removal of a master-unchanged key
      intro h1 h2
      obtain ⟨v, hv⟩ := (memA_iff _ _).mp h1
      rw [hRd] at hv
      cases hla : lookupA aMap k with
      | none => rw [hla] at hv; simp at hv
      | some u =>
        rw [hla] at hv
        by_cases hmD : memA dMap k
        · simp [hmD] at hv
        · have hld : lookupA dMap k = none :=
            (memA_false_iff _ _).mp (by simpa using hmD)
          have hmut : memA (computeChanges aMap dMap).mutations k = false := by
            rw [memA_false_iff, hMd, hld]
          rw [hmain, hmut, h1, h2]
          simp
    · -- dev mutation, not a master mutation
      intro h1 h2
      obtain ⟨v, hv⟩ := (memA_iff _ _).mp h1
      rw [hmain, h1, h2]
      simp only [Bool.not_false, Bool.and_true, Bool.true_and, if_true]
      rw [hMd] at hv ⊢
      cases hld : lookupA dMap k with
      | none => simp [hld] at hv
      | some w =>
        simp only [hld] at hv ⊢
        cases hla : lookupA aMap k with
        | none => simp [hla] at hv
        | some u =>
          simp only [hla] at hv ⊢
          by_cases hu : u = w
          · simp [hu] at hv
          · simp [hu]
    · -- master additions and mutations win
      intro h14
      rcases h14 with h | h
      · obtain ⟨v, hv⟩ := (memA_iff _ _).mp h
        rw [hAm] at hv
        cases hlm : lookupA mMap k with
        | none => rw [hlm] at hv; simp at hv
        | some w =>
          rw [hlm] at hv
          by_cases hmA : memA aMap k
          · simp [hmA] at hv
          · have hla : lookupA aMap k = none :=
              (memA_false_iff _ _).mp (by simpa using hmA)
            have hmut : memA (computeChanges aMap dMap).mutations k
                = false := by
              rw [memA_false_iff, hMd, hla]
              cases lookupA dMap k <;> simp
            have hrem : memA (computeChanges aMap dMap).removals k
                = false := by
              rw [memA_false_iff, hRd, hla]
            rw [hmain, hmut, hrem, h]
            simp [hlm]
      · obtain ⟨v, hv⟩ := (memA_iff _ _).mp h
        rw [hMm] at hv
        cases hlm : lookupA mMap k with
        | none => rw [hlm] at hv; simp at hv
        | some w =>
          rw [hlm] at hv
          cases hla : lookupA aMap k with
          | none => rw [hla] at hv; simp at hv
          | some u =>
            rw [hla] at hv
            by_cases huw : u = w
            · simp [huw] at hv
            · have hmemA : memA aMap k = true := by simp [memA, hla]
              have hunch : memA (computeChanges aMap mMap).unchanged k
                  = false := by
                rw [memA_false_iff, hUm, hlm, hla]
                simp [huw]
              have haddD : memA (computeChanges aMap dMap).additions k
                  = false := by
                rw [memA_false_iff, hAd]
                cases lookupA dMap k <;> simp [hmemA]
              rw [hmain, h, hunch, haddD]
              simp [hlm]
  · -- arrayset present in dev but absent in master: dev's map wholesale
    intro dsc hdsc
    simp only [compute_merge_results] at hres
    split at hres
    · cases hres
    · have hres' := (Except.ok.inj hres).symm
      rw [hres'] at hdsc
      simp only at hdsc
      obtain ⟨v, hv, hdsceq⟩ := lookupA_map_entry _ _ _ _ hdsc
      rw [hdsceq]
      simp only
      have ho := lookupA_map_of_lookupA
        (merge_changes (branchChanges (schemaMap a) (schemaMap m)
          (schemaMap d)) (schemaMap m))
        (fun p => if memA m.datasets p.1 then
            merge_changes (branchChanges (dataMap a p.1) (dataMap m p.1)
              (dataMap d p.1)) (dataMap m p.1)
          else dataMap d p.1) n v hv
      rw [ho]
      simp [hnm]

theorem merge_patch_per_key_rules_witness :
    memA (computeChanges [(1, 10)] [(1, 11)]).mutations 1 = true ∧
    memA (computeChanges [(1, 10)] [(1, 10), (2, 20)]).mutations 1 = false ∧
    lookupA (merge_changes (branchChanges [(1, 10)] [(1, 10), (2, 20)]
      [(1, 11)]) [(1, 10), (2, 20)]) 1 = lookupA [(1, 11)] 1 ∧
    (∀ dsc : DatasetContents,
      lookupA (CommitContents.datasets ⟨[(5, ⟨7, [(0, 42)]⟩)], []⟩) 5
        = some dsc →
      dsc.data = dataMap ⟨[(5, ⟨7, [(0, 42)]⟩)], []⟩ 5) := by
  have h := merge_patch_per_key_rules [(1, 10)] [(1, 10), (2, 20)] [(1, 11)]
    1 (by decide) (by decide) (by decide) ⟨[], []⟩ ⟨[], []⟩
    ⟨[(5, ⟨7, [(0, 42)]⟩)], []⟩ ⟨[(5, ⟨7, [(0, 42)]⟩)], []⟩ 5 rfl (by decide)
  exact ⟨by decide, by decide, h.1.2.2.1 (by decide) (by decide), h.2⟩

/-! ## Claim C10: the merge writer lock is always released -/

/-- Claim C10: `select_merge_algorithm` acquires the writer lock with the
fixed uuid `'MERGE_PROCESS'` and releases it in a `finally:` block, so on
every exit path after acquisition — fast-forward success, three-way
success, an ancestor-determination error, or a three-way error including a
conflict abort — the final lock is free. -/
theorem select_merge_releases_writer_lock
    (staging_branch master_branch dev_branch : String)
    (anc : Except String HistoryDiff) (env : MergeEnv) (l : Option String)
    (hclean : staging_area_status staging_branch env.repo = "CLEAN")
    (hacq : acquire_writer_lock env.lock "MERGE_PROCESS" = Except.ok l) :
    (select_merge_algorithm staging_branch master_branch dev_branch anc
      env).2.lock = none := by
  have hl : l = some "MERGE_PROCESS" := by
    cases h : env.lock with
    | none =>
      rw [h] at hacq
      simp only [acquire_writer_lock] at hacq
      exact (Except.ok.inj hacq).symm
    | some s =>
      rw [h] at hacq
      by_cases hs : s = "MERGE_PROCESS"
      · simp only [acquire_writer_lock, hs, if_pos] at hacq
        exact (Except.ok.inj hacq).symm
      · simp only [acquire_writer_lock, if_neg hs] at hacq
        cases hacq
  unfold select_merge_algorithm
  rw [if_neg (fun hne => hne hclean), hacq, hl]
  simp [release_writer_lock]

theorem select_merge_releases_writer_lock_witness :
    staging_area_status "master" (default : RepoState) = "CLEAN" ∧
    acquire_writer_lock (none : Option String) "MERGE_PROCESS" =
      Except.ok (some "MERGE_PROCESS") ∧
    (select_merge_algorithm "master" "master" "dev"
      (Except.error "HANGAR VALUE ERROR") ⟨default, none⟩).2.lock = none :=
  ⟨by decide, rfl,
   select_merge_releases_writer_lock "master" "master" "dev"
     (Except.error "HANGAR VALUE ERROR") ⟨default, none⟩
     (some "MERGE_PROCESS") (by decide) rfl⟩

end Hangar
